import Mathlib

/-!
Shallow embedding of the EQL Keras layers (`keras_classes.py`): the
`Connected` dense layer with trimmer masks and L1 regularization loss,
the `EqlLayer` symbolic layer, the `DivLayer` division layer, and the
`EnergyConsReg` activity regularizer.  Tensors are embedded as
`Matrix (Fin batch) (Fin width) α` over a linearly ordered field; the
layer's mutable attributes (weights, biases, trimmer masks, the loss
list fed by `add_loss`) become an explicit state record threaded
through each `call`.
-/

variable {α : Type} [LinearOrderedField α]

/-- State of a built `Connected` layer: weight matrix `W`, bias `b`,
the two all-ones-initialized trimmer masks, the non-trainable
regularization coefficient, and the list of losses registered so far
via `add_loss`. -/
structure ConnectedState (α : Type) (m n : ℕ) where
  W : Matrix (Fin m) (Fin n) α
  b : Fin n → α
  Wtrimmer : Matrix (Fin m) (Fin n) α
  btrimmer : Fin n → α
  regularization : α
  losses : List α

/-- `Connected.Wconstraint`: `w * self.Wtrimmer` (elementwise). -/
def Wconstraint (s : ConnectedState α m n) (w : Matrix (Fin m) (Fin n) α) :
    Matrix (Fin m) (Fin n) α :=
  Matrix.of fun i j => w i j * s.Wtrimmer i j

/-- `Connected.bconstraint`: `b * self.btrimmer` (elementwise). -/
def bconstraint (s : ConnectedState α m n) (b : Fin n → α) : Fin n → α :=
  fun j => b j * s.btrimmer j

/-- `Connected.build`: allocates `W` and `b` from the initializers and
sets both trimmer masks to all ones. -/
def connectedBuild (W : Matrix (Fin m) (Fin n) α) (b : Fin n → α)
    (reg : α) : ConnectedState α m n :=
  ⟨W, b, Matrix.of fun _ _ => 1, fun _ => 1, reg, []⟩

/-- The affine output `tf.matmul(x, self.W) + self.b` of
`Connected.call`, with the bias broadcast across the batch rows. -/
def connectedOut (s : ConnectedState α m n) (x : Matrix (Fin k) (Fin m) α) :
    Matrix (Fin k) (Fin n) α :=
  Matrix.of fun i j => (x * s.W) i j + s.b j

/-- The loss term `self.regularization * (reduce_sum(abs(W)) +
reduce_sum(abs(b)))` registered by `Connected.call`. -/
def connectedRegLoss (s : ConnectedState α m n) : α :=
  s.regularization * ((∑ i, ∑ j, |s.W i j|) + ∑ j, |s.b j|)

/-- `Connected.call`: returns the affine output and the state with the
regularization loss appended by `add_loss`. -/
def connectedCall (s : ConnectedState α m n) (x : Matrix (Fin k) (Fin m) α) :
    Matrix (Fin k) (Fin n) α × ConnectedState α m n :=
  (connectedOut s x, { s with losses := s.losses ++ [connectedRegLoss s] })

/-- C1: the forward pass of a built `Connected` layer returns exactly
`matmul(x, W) + b` from the raw stored tensors; when the stored
parameters satisfy the already-masked invariant this equals
`x * (W * Wtrimmer) + b * btrimmer`; and the call registers the loss
`regularization * (sum of absolute values of W plus of b)` regardless of
the mask state. -/
theorem connected_call_forward_and_regloss (s : ConnectedState α m n)
    (x : Matrix (Fin k) (Fin m) α)
    (hW : ∀ i j, s.W i j = s.W i j * s.Wtrimmer i j)
    (hb : ∀ j, s.b j = s.b j * s.btrimmer j) :
    (∀ i j, (connectedCall s x).1 i j = (∑ p, x i p * s.W p j) + s.b j) ∧
    (∀ i j, (connectedCall s x).1 i j =
      (∑ p, x i p * (s.W p j * s.Wtrimmer p j)) + s.b j * s.btrimmer j) ∧
    (connectedCall s x).2.losses = s.losses ++
      [s.regularization * ((∑ i, ∑ j, |s.W i j|) + ∑ j, |s.b j|)] := by
  refine ⟨fun i j => ?_, fun i j => ?_, rfl⟩
  · simp [connectedCall, connectedOut, Matrix.mul_apply]
  · simp only [connectedCall, connectedOut, Matrix.of_apply, Matrix.mul_apply]
    rw [← hb j]
    refine congrArg (fun z => z + s.b j) (Finset.sum_congr rfl fun p _ => ?_)
    rw [← hW p j]

/-- A concrete 1-input, 2-output weight matrix over ℚ for instantiating
the theorems. -/
def sampleW : Matrix (Fin 1) (Fin 2) ℚ :=
  Matrix.of fun _ j => if j = 0 then 3 else -2

/-- A concrete built `Connected` layer state over ℚ. -/
def sampleConn : ConnectedState ℚ 1 2 :=
  connectedBuild sampleW (fun j => (j : ℚ)) 5

/-- A concrete one-row input batch over ℚ. -/
def sampleX : Matrix (Fin 1) (Fin 1) ℚ :=
  Matrix.of fun _ _ => 4

/-- Concrete instantiation of the `Connected` forward theorem: a 1x2
layer over ℚ whose freshly built state satisfies the already-masked
invariant. -/
theorem connected_call_forward_and_regloss_witness :
    (∀ i j, sampleConn.W i j = sampleConn.W i j * sampleConn.Wtrimmer i j) ∧
    (∀ i j, (connectedCall sampleConn sampleX).1 i j =
      (∑ p, sampleX i p * sampleConn.W p j) + sampleConn.b j) := by
  refine ⟨by simp [sampleConn, connectedBuild],
    (connected_call_forward_and_regloss sampleConn sampleX
      (by simp [sampleConn, connectedBuild])
      (by simp [sampleConn, connectedBuild])).1⟩

/-- C4: whenever a trimmer-mask entry is 0, applying the constraint
forces the corresponding parameter entry to exactly 0, and it stays 0
after an optimizer step to any new value once the constraint is
re-applied: for every weight value w, `Wconstraint(w)[i,j] = 0` whenever
`Wtrimmer[i,j] = 0`, and likewise for the bias via `bconstraint`. -/
theorem constraint_forces_masked_zero (s : ConnectedState α m n) :
    (∀ (w : Matrix (Fin m) (Fin n) α) (i : Fin m) (j : Fin n),
      s.Wtrimmer i j = 0 → Wconstraint s w i j = 0) ∧
    (∀ (c : Fin n → α) (j : Fin n),
      s.btrimmer j = 0 → bconstraint s c j = 0) := by
  constructor
  · intro w i j h
    simp [Wconstraint, h]
  · intro c j h
    simp [bconstraint, h]

/-- A `Connected` state over ℚ whose trimmer masks contain a 0 entry. -/
def maskedConn : ConnectedState ℚ 1 2 :=
  { sampleConn with
      Wtrimmer := Matrix.of fun _ j => if j = 0 then 0 else 1,
      btrimmer := fun j => if j = 0 then 0 else 1 }

/-- Concrete instantiation of the masked-zero theorem at a state whose
mask entry (0,0) is 0 and an arbitrary updated weight value. -/
theorem constraint_forces_masked_zero_witness :
    maskedConn.Wtrimmer 0 0 = 0 ∧
    Wconstraint maskedConn (Matrix.of fun _ _ => (7 : ℚ)) 0 0 = 0 := by
  refine ⟨by simp [maskedConn], (constraint_forces_masked_zero maskedConn).1
    (Matrix.of fun _ _ => (7 : ℚ)) 0 0 (by simp [maskedConn])⟩

/-- C7: when every trimmer-mask entry is 0 or 1, applying the mask
constraint twice produces the same result as applying it once, for both
`Wconstraint` and `bconstraint`. -/
theorem constraint_idempotent (s : ConnectedState α m n)
    (hW : ∀ i j, s.Wtrimmer i j = 0 ∨ s.Wtrimmer i j = 1)
    (hb : ∀ j, s.btrimmer j = 0 ∨ s.btrimmer j = 1) :
    (∀ w, Wconstraint s (Wconstraint s w) = Wconstraint s w) ∧
    (∀ c, bconstraint s (bconstraint s c) = bconstraint s c) := by
  constructor
  · intro w
    ext i j
    rcases hW i j with h | h <;> simp [Wconstraint, h]
  · intro c
    funext j
    rcases hb j with h | h <;> simp [bconstraint, h]

/-- Concrete instantiation of constraint idempotence at a ℚ state with
a mixed 0/1 mask. -/
theorem constraint_idempotent_witness :
    (∀ i j, maskedConn.Wtrimmer i j = 0 ∨ maskedConn.Wtrimmer i j = 1) ∧
    Wconstraint maskedConn (Wconstraint maskedConn sampleW) =
      Wconstraint maskedConn sampleW := by
  have hW : ∀ i j, maskedConn.Wtrimmer i j = 0 ∨ maskedConn.Wtrimmer i j = 1 := by
    intro i j
    by_cases h : j = 0 <;> simp [maskedConn, h]
  have hb : ∀ j, maskedConn.btrimmer j = 0 ∨ maskedConn.btrimmer j = 1 := by
    intro j
    by_cases h : j = 0 <;> simp [maskedConn, sampleConn, connectedBuild, h]
  exact ⟨hW, (constraint_idempotent maskedConn hW hb).1 sampleW⟩

/-- C10: the regularization loss registered by `Connected.call` is the
same for any two input batches (even of different batch sizes): the
whole post-call state, its loss list included, depends only on the
stored parameters, never on the input. -/
theorem connected_regloss_input_independent (s : ConnectedState α m n)
    (x₁ : Matrix (Fin k₁) (Fin m) α) (x₂ : Matrix (Fin k₂) (Fin m) α) :
    (connectedCall s x₁).2.losses = (connectedCall s x₂).2.losses ∧
    (connectedCall s x₁).2 = (connectedCall s x₂).2 := ⟨rfl, rfl⟩

/-- Error classes observable from the layer code: Python `IndexError`
from hypothesis-set indexing, and the spec's `ConfigError` and
`ShapeError` classes. -/
inductive LayerErr
  | indexError
  | configError
  | shapeError
  deriving DecidableEq

/-- State of an `EqlLayer` with node counts `(u, v)`: the hypothesis
set, the assignment vector `unaryFunc`, and the underlying `Connected`
state of output width `u + 2v`. -/
structure EqlLayerState (α : Type) (m u v : ℕ) where
  hypSet : List (α → α)
  unaryFunc : List ℕ
  conn : ConnectedState α m (u + 2 * v)

/-- `EqlLayer.__init__` + `build`: stores `hypSet` and `unaryFunc`
verbatim (no validation appears in the source) and builds the inner
`Connected` layer with output width `u + 2v`. -/
def eqlBuild (hypSet : List (α → α)) (unaryFunc : List ℕ)
    (W : Matrix (Fin m) (Fin (u + 2 * v)) α) (b : Fin (u + 2 * v) → α)
    (reg : α) : EqlLayerState α m u v :=
  ⟨hypSet, unaryFunc, connectedBuild W b reg⟩

/-- Whether every unary slot `i < u` can index `unaryFunc` and then
`hypSet` without a Python `IndexError`. -/
def eqlIndexOk (hypSet : List (α → α)) (unaryFunc : List ℕ) (u : ℕ) : Bool :=
  (List.range u).all fun i =>
    decide (i < unaryFunc.length) && decide (unaryFunc.getD i 0 < hypSet.length)

/-- The nonlinear block of `EqlLayer.call`: column `i < u` applies
`hypSet[unaryFunc[i]]` to column `i` of the linear output; column
`u + p` is the product of linear-output columns `u + 2p` and
`u + 2p + 1`. -/
def eqlNonlinear (hypSet : List (α → α)) (unaryFunc : List ℕ)
    (linOut : Matrix (Fin k) (Fin (u + 2 * v)) α) :
    Matrix (Fin k) (Fin (u + v)) α :=
  Matrix.of fun r c =>
    if h : (c : ℕ) < u then
      (hypSet.getD (unaryFunc.getD (c : ℕ) 0) (fun z => z))
        (linOut r ⟨(c : ℕ), by omega⟩)
    else
      linOut r ⟨u + 2 * ((c : ℕ) - u), by have hc := c.isLt; omega⟩ *
      linOut r ⟨u + 2 * ((c : ℕ) - u) + 1, by have hc := c.isLt; omega⟩

/-- `EqlLayer.call`: the inner `Connected.call` runs first (registering
its regularization loss), then the hypothesis-set lookups happen; an
out-of-range lookup raises `IndexError`. -/
def eqlCall (s : EqlLayerState α m u v) (x : Matrix (Fin k) (Fin m) α) :
    Except LayerErr (Matrix (Fin k) (Fin (u + v)) α) × EqlLayerState α m u v :=
  let res := connectedCall s.conn x
  (if eqlIndexOk s.hypSet s.unaryFunc u then
      Except.ok (eqlNonlinear s.hypSet s.unaryFunc res.1)
    else Except.error LayerErr.indexError,
    { s with conn := res.2 })

omit [LinearOrderedField α] in
/-- `eqlIndexOk` holds exactly when every unary slot indexes both lists
in bounds. -/
theorem eqlIndexOk_iff (hypSet : List (α → α)) (unaryFunc : List ℕ) (u : ℕ) :
    eqlIndexOk hypSet unaryFunc u = true ↔
      ∀ i < u, i < unaryFunc.length ∧ unaryFunc.getD i 0 < hypSet.length := by
  simp [eqlIndexOk, List.all_eq_true, List.mem_range]

/-- C3: for an `EqlLayer` with node counts `(u, v)`, a length-`u`
assignment valid for a non-empty hypothesis set, the call succeeds and
returns the matrix whose column `i < u` is `hypSet[unaryFunc[i]]`
applied to linear-output column `i`, and whose column `u + p` is the
product of linear-output columns `u + 2p` and `u + 2p + 1`; in
particular with `u = 2`, `v = 1`, hypothesis set `[identity, sin]` and
assignment `[1, 0]`, linear output `[a, b, c, d]` yields
`[sin a, b, c * d]`. -/
theorem eql_call_forward (s : EqlLayerState α m u v)
    (x : Matrix (Fin k) (Fin m) α)
    (hne : s.hypSet ≠ [])
    (hlen : s.unaryFunc.length = u)
    (hvalid : ∀ i ∈ s.unaryFunc, i < s.hypSet.length) :
    ((eqlCall s x).1 =
      Except.ok (eqlNonlinear s.hypSet s.unaryFunc (connectedOut s.conn x))) ∧
    (∀ (r : Fin k) (i : Fin u) (hi₁ : (i : ℕ) < s.unaryFunc.length)
      (hi₂ : s.unaryFunc.get ⟨(i : ℕ), hi₁⟩ < s.hypSet.length),
      eqlNonlinear s.hypSet s.unaryFunc (connectedOut s.conn x) r
          ⟨(i : ℕ), by have hu := i.isLt; omega⟩ =
        s.hypSet.get ⟨s.unaryFunc.get ⟨(i : ℕ), hi₁⟩, hi₂⟩
          (connectedOut s.conn x r ⟨(i : ℕ), by have hu := i.isLt; omega⟩)) ∧
    (∀ (r : Fin k) (p : Fin v),
      eqlNonlinear s.hypSet s.unaryFunc (connectedOut s.conn x) r
          ⟨u + (p : ℕ), by have hv := p.isLt; omega⟩ =
        connectedOut s.conn x r
            ⟨u + 2 * (p : ℕ), by have hv := p.isLt; omega⟩ *
        connectedOut s.conn x r
            ⟨u + 2 * (p : ℕ) + 1, by have hv := p.isLt; omega⟩) ∧
    (∀ a b c d : ℝ,
      (eqlCall
          (eqlBuild (m := 4) (u := 2) (v := 1) [fun z => z, Real.sin] [1, 0]
            (1 : Matrix (Fin 4) (Fin 4) ℝ) (fun _ => 0) 0)
          (Matrix.of fun _ j => ![a, b, c, d] j : Matrix (Fin 1) (Fin 4) ℝ)).1 =
        Except.ok (Matrix.of fun _ j => ![Real.sin a, b, c * d] j)) := by
  have hok : eqlIndexOk s.hypSet s.unaryFunc u = true := by
    rw [eqlIndexOk_iff]
    intro i hi
    have h₁ : i < s.unaryFunc.length := by omega
    refine ⟨h₁, ?_⟩
    rw [List.getD_eq_get s.unaryFunc 0 h₁]
    exact hvalid _ (List.get_mem s.unaryFunc i h₁)
  refine ⟨?_, ?_, ?_, ?_⟩
  · simp [eqlCall, hok, connectedCall]
  · intro r i hi₁ hi₂
    have hu : (i : ℕ) < u := i.isLt
    simp only [eqlNonlinear, Matrix.of_apply, dif_pos hu]
    rw [List.getD_eq_get s.unaryFunc 0 hi₁,
      List.getD_eq_get s.hypSet (fun z => z) hi₂]
  · intro r p
    have hv : (p : ℕ) < v := p.isLt
    have hnot : ¬ (u + (p : ℕ) < u) := by omega
    simp only [eqlNonlinear, Matrix.of_apply, dif_neg hnot,
      Nat.add_sub_cancel_left]
  · intro a b c d
    have hok2 : eqlIndexOk (α := ℝ) [fun z => z, Real.sin] [1, 0] 2 = true := by
      decide
    simp only [eqlCall, hok2, if_true, connectedCall, connectedOut,
      eqlBuild, connectedBuild]
    refine congrArg Except.ok ?_
    ext r j
    fin_cases j <;>
      simp [eqlNonlinear, Matrix.mul_one, Matrix.of_apply,
        List.getD, Fin.isValue]

/-- A concrete valid `EqlLayer` over ℚ: one unary slot with hypothesis
set `[square]`, one product slot. -/
def sampleEql : EqlLayerState ℚ 3 1 1 :=
  eqlBuild [fun z => z * z] [0] (Matrix.of fun _ _ => 1) (fun _ => 0) 0

/-- A concrete one-row, three-column input batch over ℚ. -/
def sampleX3 : Matrix (Fin 1) (Fin 3) ℚ :=
  Matrix.of fun _ _ => 2

/-- Concrete instantiation of the `EqlLayer` forward theorem at a valid
configuration over ℚ. -/
theorem eql_call_forward_witness :
    sampleEql.hypSet ≠ [] ∧ sampleEql.unaryFunc.length = 1 ∧
    (∀ i ∈ sampleEql.unaryFunc, i < sampleEql.hypSet.length) ∧
    (eqlCall sampleEql sampleX3).1 =
      Except.ok (eqlNonlinear sampleEql.hypSet sampleEql.unaryFunc
        (connectedOut sampleEql.conn sampleX3)) := by
  refine ⟨by simp [sampleEql, eqlBuild], by simp [sampleEql, eqlBuild],
    by simp [sampleEql, eqlBuild],
    (eql_call_forward sampleEql sampleX3 (by simp [sampleEql, eqlBuild])
      (by simp [sampleEql, eqlBuild]) (by simp [sampleEql, eqlBuild])).1⟩

/-- An `EqlLayer` built from a structurally invalid configuration: the
hypothesis set is empty while one unary slot is declared. -/
def badEql : EqlLayerState ℚ 1 1 0 :=
  eqlBuild [] [0] (Matrix.of fun _ _ => 1) (fun _ => 0) 0

/-- C8 counterexample: building with an empty hypothesis set does not
raise anything — the configuration is stored verbatim — and the first
forward pass then fails with an `IndexError`-class error, not with the
`ConfigError` the claim requires at build time. -/
theorem eql_build_no_config_error :
    badEql.hypSet = [] ∧ badEql.unaryFunc = [0] ∧
    (eqlCall badEql sampleX).1 = Except.error LayerErr.indexError ∧
    (eqlCall badEql sampleX).1 ≠ Except.error LayerErr.configError := by
  refine ⟨rfl, rfl, ?_, ?_⟩ <;>
    simp [badEql, eqlBuild, eqlCall, eqlIndexOk, connectedBuild]

/-- C8 amended: no validation happens at construction or build time —
`eqlBuild` accepts any configuration verbatim, empty hypothesis sets,
wrong-length assignments and all — and a configuration in which some
unary slot `i < u` cannot index the assignment or the hypothesis set
makes the forward pass fail with an `IndexError`-class error at call
time. -/
theorem eql_errors_surface_at_call (s : EqlLayerState α m u v)
    (x : Matrix (Fin k) (Fin m) α)
    (hbad : ∃ i, i < u ∧ (s.unaryFunc.length ≤ i ∨
      s.hypSet.length ≤ s.unaryFunc.getD i 0)) :
    (∀ (hypSet : List (α → α)) (unaryFunc : List ℕ)
      (W : Matrix (Fin m) (Fin (u + 2 * v)) α) (b : Fin (u + 2 * v) → α)
      (reg : α),
      eqlBuild hypSet unaryFunc W b reg =
        ⟨hypSet, unaryFunc, connectedBuild W b reg⟩) ∧
    (eqlCall s x).1 = Except.error LayerErr.indexError := by
  refine ⟨fun _ _ _ _ _ => rfl, ?_⟩
  have hnot : ¬ eqlIndexOk s.hypSet s.unaryFunc u = true := by
    rw [eqlIndexOk_iff]
    push_neg
    obtain ⟨i, hi, hcase⟩ := hbad
    exact ⟨i, hi, fun h₁ => by omega⟩
  simp [eqlCall, Bool.not_eq_true] at hnot ⊢
  simp [hnot]

/-- Concrete instantiation of the amended C8 theorem at the invalid
empty-hypothesis-set configuration. -/
theorem eql_errors_surface_at_call_witness :
    (∃ i, i < 1 ∧ (badEql.unaryFunc.length ≤ i ∨
      badEql.hypSet.length ≤ badEql.unaryFunc.getD i 0)) ∧
    (eqlCall badEql sampleX).1 = Except.error LayerErr.indexError := by
  refine ⟨⟨0, by simp [badEql, eqlBuild], Or.inr (by simp [badEql, eqlBuild])⟩,
    (eql_errors_surface_at_call badEql sampleX
      ⟨0, by simp [badEql, eqlBuild], Or.inr (by simp [badEql, eqlBuild])⟩).2⟩

/-- The fixed constant `1e-10` added to the absolute denominator before
taking the reciprocal in `DivLayer.call`. -/
def divEps : α := 1 / 10 ^ 10

/-- State of a `DivLayer` producing `w` quotients: the non-trainable
threshold, the optional caller-supplied loss function, and the
underlying `Connected` state of output width `2w`. -/
structure DivLayerState (α : Type) (m w : ℕ) where
  threshold : α
  customLoss : Option ((k : ℕ) → Matrix (Fin k) (Fin w) α → α)
  conn : ConnectedState α m (2 * w)

/-- `DivLayer.__init__` + `build`: stores the threshold and optional
loss (no validation appears in the source) and builds the inner
`Connected` layer with output width `2 * outputShape`. -/
def divBuild (threshold : α)
    (customLoss : Option ((k : ℕ) → Matrix (Fin k) (Fin w) α → α))
    (W : Matrix (Fin m) (Fin (2 * w)) α) (b : Fin (2 * w) → α) (reg : α) :
    DivLayerState α m w :=
  ⟨threshold, customLoss, connectedBuild W b reg⟩

/-- `linOutput[:, ::2]`: the even-indexed columns, the numerators. -/
def divNumerators (linOut : Matrix (Fin k) (Fin (2 * w)) α) :
    Matrix (Fin k) (Fin w) α :=
  Matrix.of fun i j => linOut i ⟨2 * (j : ℕ), by have := j.isLt; omega⟩

/-- `linOutput[:, 1::2]`: the odd-indexed columns, the denominators. -/
def divDenominators (linOut : Matrix (Fin k) (Fin (2 * w)) α) :
    Matrix (Fin k) (Fin w) α :=
  Matrix.of fun i j => linOut i ⟨2 * (j : ℕ) + 1, by have := j.isLt; omega⟩

/-- The 0/1 gate `tf.cast(denominators > threshold)`: compares the raw
(signed) denominator against the threshold. -/
def divGate (t d : α) : α := if t < d then 1 else 0

/-- The gated quotient `numerators * reciprocal(abs(denominators) +
1e-10) * gate` of `DivLayer.call`. -/
def divOut (t : α) (linOut : Matrix (Fin k) (Fin (2 * w)) α) :
    Matrix (Fin k) (Fin w) α :=
  Matrix.of fun i j =>
    divNumerators linOut i j * (|divDenominators linOut i j| + divEps)⁻¹ *
      divGate t (divDenominators linOut i j)

/-- The hinge penalty `reduce_sum(maximum(threshold - denominators, 0))`
registered by `DivLayer.call`. -/
def divDenomLoss (t : α) (linOut : Matrix (Fin k) (Fin (2 * w)) α) : α :=
  ∑ i, ∑ j, max (t - divDenominators linOut i j) 0

/-- `DivLayer.call`: inner `Connected.call` (registering its
regularization loss), then the gated division, then `add_loss` of the
hinge penalty and, when present, of the caller-supplied loss on the
final output. -/
def divCall (s : DivLayerState α m w) (x : Matrix (Fin k) (Fin m) α) :
    Matrix (Fin k) (Fin w) α × DivLayerState α m w :=
  let res := connectedCall s.conn x
  let out := divOut s.threshold res.1
  (out, { s with conn := { res.2 with losses := res.2.losses ++
    [divDenomLoss s.threshold res.1] ++
    (match s.customLoss with
     | none => []
     | some f => [f k out]) } })

/-- C2: in `DivLayer.call` the numerators are the even-indexed columns
of the linear output and the denominators the odd-indexed ones, and for
every channel: a raw denominator `d ≤ threshold` gives output exactly 0
whatever the numerator (negative denominators of any magnitude
included), while `d > threshold` gives `numerator * (1/(|d| + 1e-10))`. -/
theorem div_call_gated_division (s : DivLayerState α m w)
    (x : Matrix (Fin k) (Fin m) α) (i : Fin k) (j : Fin w) :
    (divNumerators (connectedOut s.conn x) i j =
      connectedOut s.conn x i ⟨2 * (j : ℕ), by have := j.isLt; omega⟩) ∧
    (divDenominators (connectedOut s.conn x) i j =
      connectedOut s.conn x i ⟨2 * (j : ℕ) + 1, by have := j.isLt; omega⟩) ∧
    (divDenominators (connectedOut s.conn x) i j ≤ s.threshold →
      (divCall s x).1 i j = 0) ∧
    (s.threshold < divDenominators (connectedOut s.conn x) i j →
      (divCall s x).1 i j = divNumerators (connectedOut s.conn x) i j *
        (|divDenominators (connectedOut s.conn x) i j| + 1 / 10 ^ 10)⁻¹) := by
  refine ⟨rfl, rfl, fun h => ?_, fun h => ?_⟩
  · have hg : divGate s.threshold (divDenominators (connectedOut s.conn x) i j)
        = 0 := by
      simp [divGate, not_lt_of_le h]
    simp [divCall, divOut, connectedCall, hg]
  · have hg : divGate s.threshold (divDenominators (connectedOut s.conn x) i j)
        = 1 := by
      simp [divGate, h]
    simp [divCall, divOut, connectedCall, hg, divEps]

/-- A concrete `DivLayer` over ℚ with one quotient channel whose
denominator comes out negative with large magnitude. -/
def sampleDiv : DivLayerState ℚ 2 1 :=
  divBuild (1 / 1000) none (!![2, 0; 3, -5] : Matrix (Fin 2) (Fin 2) ℚ)
    (fun _ => 0) 0

/-- A concrete one-row, two-column input batch over ℚ. -/
def sampleX2 : Matrix (Fin 1) (Fin 2) ℚ :=
  Matrix.of fun _ _ => 1

/-- Concrete instantiation of the gated-division theorem: the raw
denominator is `-5 ≤ 1/1000`, so the channel is gated to exactly 0 even
though its magnitude exceeds the threshold. -/
theorem div_call_gated_division_witness :
    divDenominators (connectedOut sampleDiv.conn sampleX2) 0 0 ≤
      sampleDiv.threshold ∧
    (divCall sampleDiv sampleX2).1 0 0 = 0 := by
  have hd : divDenominators (connectedOut sampleDiv.conn sampleX2) 0 0 ≤
      sampleDiv.threshold := by
    simp [divDenominators, connectedOut, sampleDiv, divBuild, connectedBuild,
      sampleX2, Matrix.mul_apply, Fin.sum_univ_succ]
    norm_num
  exact ⟨hd, (div_call_gated_division sampleDiv sampleX2 0 0).2.2.1 hd⟩

/-- C5: every `DivLayer.call` registers, after the inherited
regularization term, the hinge penalty `sum(max(threshold -
denominator, 0))` over all denominator entries of the batch; this
penalty is 0 when every denominator exceeds the threshold and strictly
positive when any denominator is below it. -/
theorem div_call_hinge_penalty (s : DivLayerState α m w)
    (x : Matrix (Fin k) (Fin m) α) :
    ((divCall s x).2.conn.losses = s.conn.losses ++ [connectedRegLoss s.conn]
      ++ [divDenomLoss s.threshold (connectedOut s.conn x)] ++
      (match s.customLoss with
       | none => []
       | some f => [f k (divCall s x).1])) ∧
    (divDenomLoss s.threshold (connectedOut s.conn x) =
      ∑ i, ∑ j : Fin w, max (s.threshold -
        connectedOut s.conn x i ⟨2 * (j : ℕ) + 1, by have := j.isLt; omega⟩)
        0) ∧
    ((∀ i j, s.threshold < divDenominators (connectedOut s.conn x) i j) →
      divDenomLoss s.threshold (connectedOut s.conn x) = 0) ∧
    ((∃ i j, divDenominators (connectedOut s.conn x) i j < s.threshold) →
      0 < divDenomLoss s.threshold (connectedOut s.conn x)) := by
  refine ⟨rfl, rfl, fun h => ?_, fun h => ?_⟩
  · refine Finset.sum_eq_zero fun i _ => Finset.sum_eq_zero fun j _ => ?_
    exact max_eq_right (sub_nonpos.mpr (le_of_lt (h i j)))
  · obtain ⟨i, j, hij⟩ := h
    refine Finset.sum_pos'
      (fun p _ => Finset.sum_nonneg fun q _ => le_max_right _ _)
      ⟨i, Finset.mem_univ i, Finset.sum_pos'
        (fun q _ => le_max_right _ _)
        ⟨j, Finset.mem_univ j, lt_max_iff.mpr (Or.inl (sub_pos.mpr hij))⟩⟩

/-- Concrete instantiation of the hinge-penalty theorem: the sample
layer's denominator `-5` lies below the threshold `1/1000`, so the
registered penalty is strictly positive. -/
theorem div_call_hinge_penalty_witness :
    (∃ i j, divDenominators (connectedOut sampleDiv.conn sampleX2) i j <
      sampleDiv.threshold) ∧
    0 < divDenomLoss sampleDiv.threshold (connectedOut sampleDiv.conn
      sampleX2) := by
  have hd : divDenominators (connectedOut sampleDiv.conn sampleX2) 0 0 <
      sampleDiv.threshold := by
    simp [divDenominators, connectedOut, sampleDiv, divBuild, connectedBuild,
      sampleX2, Matrix.mul_apply, Fin.sum_univ_succ]
    norm_num
  exact ⟨⟨0, 0, hd⟩,
    (div_call_hinge_penalty sampleDiv sampleX2).2.2.2 ⟨0, 0, hd⟩⟩

/-- `EnergyConsReg`: the user-supplied per-example energy function, the
true energy of the data, and the scaling coefficient. -/
structure EnergyConsRegS (α : Type) (n : ℕ) where
  energyFunc : (k : ℕ) → Matrix (Fin k) (Fin n) α → (Fin k → α)
  energy : α
  coef : α

/-- `EnergyConsReg.__call__`: returns
`coef * reduce_sum(abs(energyFunc(x) - energy))`. -/
def energyConsCall (r : EnergyConsRegS α n) (x : Matrix (Fin k) (Fin n) α) :
    α :=
  r.coef * ∑ i, |r.energyFunc k x i - r.energy|

/-- C6: `EnergyConsReg` returns `coef` times the batch sum of absolute
energy errors; it is 0 when every example's predicted energy equals the
true energy, and perturbing a single example's predicted energy by `δ`
away from exact equality changes the loss by exactly `coef * abs δ`. -/
theorem energy_cons_loss (r : EnergyConsRegS α n)
    (x y : Matrix (Fin k) (Fin n) α) (j : Fin k) (δ : α)
    (h0 : ∀ i, r.energyFunc k x i = r.energy)
    (hy : r.energyFunc k y = Function.update (r.energyFunc k x) j
      (r.energy + δ)) :
    (energyConsCall r x = r.coef * ∑ i, |r.energyFunc k x i - r.energy|) ∧
    energyConsCall r x = 0 ∧
    energyConsCall r y = r.coef * |δ| ∧
    energyConsCall r y - energyConsCall r x = r.coef * |δ| := by
  have hx : energyConsCall r x = 0 := by
    simp [energyConsCall, h0]
  have hsum : ∑ i, |r.energyFunc k y i - r.energy| = |δ| := by
    rw [hy]
    rw [Finset.sum_eq_single j]
    · simp [Function.update]
    · intro i _ hne
      simp [Function.update, hne, h0 i]
    · intro hj
      exact absurd (Finset.mem_univ j) hj
  have hyv : energyConsCall r y = r.coef * |δ| := by
    rw [energyConsCall, hsum]
  exact ⟨rfl, hx, hyv, by rw [hx, hyv, sub_zero]⟩

/-- A concrete energy regularizer over ℚ: the energy of a state row is
its first component, the true energy is 3, the coefficient 2. -/
def sampleEnergyReg : EnergyConsRegS ℚ 2 where
  energyFunc := fun _ x i => x i 0
  energy := 3
  coef := 2

/-- A two-example batch over ℚ with both predicted energies exactly 3. -/
def sampleFlatBatch : Matrix (Fin 2) (Fin 2) ℚ :=
  Matrix.of fun _ _ => 3

/-- The same batch with example 0's predicted energy perturbed to -1. -/
def samplePerturbedBatch : Matrix (Fin 2) (Fin 2) ℚ :=
  Matrix.of fun i _ => if i = 0 then -1 else 3

/-- Concrete instantiation of the energy-regularizer theorem: a
two-example batch at exact energy 3, perturbed in example 0 by -4. -/
theorem energy_cons_loss_witness :
    (∀ i, sampleEnergyReg.energyFunc 2 sampleFlatBatch i =
      sampleEnergyReg.energy) ∧
    (sampleEnergyReg.energyFunc 2 samplePerturbedBatch =
      Function.update (sampleEnergyReg.energyFunc 2 sampleFlatBatch) 0
        (sampleEnergyReg.energy + (-4))) ∧
    energyConsCall sampleEnergyReg samplePerturbedBatch =
      sampleEnergyReg.coef * |(-4 : ℚ)| := by
  have h0 : ∀ i, sampleEnergyReg.energyFunc 2 sampleFlatBatch i =
      sampleEnergyReg.energy := by
    intro i
    simp [sampleEnergyReg, sampleFlatBatch]
  have hy : sampleEnergyReg.energyFunc 2 samplePerturbedBatch =
      Function.update (sampleEnergyReg.energyFunc 2 sampleFlatBatch) 0
        (sampleEnergyReg.energy + (-4)) := by
    funext i
    by_cases h : i = 0 <;>
      simp [sampleEnergyReg, sampleFlatBatch, samplePerturbedBatch,
        Function.update, h] <;> norm_num
  exact ⟨h0, hy, (energy_cons_loss sampleEnergyReg _ _ 0 (-4) h0 hy).2.2.1⟩

/-- C9: a forward pass of any of the three layers leaves the weight
tensor, the bias, and both trimmer masks unchanged — `call` only reads
the parameters (only the loss list grows); the mask-multiply constraint
lives in `Wconstraint`/`bconstraint`, outside every `call`. -/
theorem call_preserves_parameters (s : ConnectedState α m n)
    (e : EqlLayerState α m u v) (d : DivLayerState α m w)
    (x : Matrix (Fin k) (Fin m) α) :
    ((connectedCall s x).2.W = s.W ∧ (connectedCall s x).2.b = s.b ∧
      (connectedCall s x).2.Wtrimmer = s.Wtrimmer ∧
      (connectedCall s x).2.btrimmer = s.btrimmer) ∧
    ((eqlCall e x).2.conn.W = e.conn.W ∧ (eqlCall e x).2.conn.b = e.conn.b ∧
      (eqlCall e x).2.conn.Wtrimmer = e.conn.Wtrimmer ∧
      (eqlCall e x).2.conn.btrimmer = e.conn.btrimmer) ∧
    ((divCall d x).2.conn.W = d.conn.W ∧ (divCall d x).2.conn.b = d.conn.b ∧
      (divCall d x).2.conn.Wtrimmer = d.conn.Wtrimmer ∧
      (divCall d x).2.conn.btrimmer = d.conn.btrimmer) :=
  ⟨⟨rfl, rfl, rfl, rfl⟩, ⟨rfl, rfl, rfl, rfl⟩, ⟨rfl, rfl, rfl, rfl⟩⟩
